import Mathlib

/-!
Verification of the yFinanceDashP dashboard core: indicator columns
(SMA, EMA, ATR, MACD, RSI), the fetch/caching layer, and the
period/interval selection lists, embedded shallowly from the Python
sources (src/main.py and src/pages/*.py).
-/

namespace YFD

/-- A pandas cell value: a finite rational, positive or negative
infinity, or NaN.  Models the IEEE semantics the pages rely on
(NaN from 0/0, infinity from x/0 with x positive, NaN propagation). -/
inductive PF where
  | nan : PF
  | pinf : PF
  | ninf : PF
  | val (q : ℚ) : PF
deriving DecidableEq, Repr

def PF.isNan : PF → Bool
  | .nan => true
  | _ => false

def PF.isVal : PF → Bool
  | .val _ => true
  | _ => false

def pfNeg : PF → PF
  | .nan => .nan
  | .pinf => .ninf
  | .ninf => .pinf
  | .val q => .val (-q)

def pfAdd : PF → PF → PF
  | .nan, _ => .nan
  | _, .nan => .nan
  | .pinf, .ninf => .nan
  | .ninf, .pinf => .nan
  | .pinf, _ => .pinf
  | _, .pinf => .pinf
  | .ninf, _ => .ninf
  | _, .ninf => .ninf
  | .val a, .val b => .val (a + b)

def pfSub (a b : PF) : PF := pfAdd a (pfNeg b)

/-- IEEE-style division as numpy/pandas performs it: finite/0 gives a
signed infinity, 0/0 gives NaN, finite/infinity gives 0. -/
def pfDiv : PF → PF → PF
  | .nan, _ => .nan
  | _, .nan => .nan
  | .val a, .val b =>
      if b ≠ 0 then .val (a / b)
      else if 0 < a then .pinf
      else if a < 0 then .ninf
      else .nan
  | .val _, .pinf => .val 0
  | .val _, .ninf => .val 0
  | .pinf, .val b => if 0 ≤ b then .pinf else .ninf
  | .ninf, .val b => if 0 ≤ b then .ninf else .pinf
  | .pinf, _ => .nan
  | .ninf, _ => .nan

/-- Multiplication by a rational constant (series * 100, ewm weights). -/
def pfScale (c : ℚ) : PF → PF
  | .nan => .nan
  | .pinf => if 0 < c then .pinf else if c < 0 then .ninf else .nan
  | .ninf => if 0 < c then .ninf else if c < 0 then .pinf else .nan
  | .val q => .val (c * q)

def pfAbs : PF → PF
  | .nan => .nan
  | .pinf => .pinf
  | .ninf => .pinf
  | .val q => .val |q|

/-- Order test for non-NaN values (NaN cases are unreachable where used). -/
def pfLeB : PF → PF → Bool
  | .ninf, _ => true
  | _, .pinf => true
  | .val a, .val b => decide (a ≤ b)
  | _, _ => false

/-- Row-wise maximum as pandas .max(axis=1) computes it with the default
skipna=True: a NaN operand is ignored, two NaN operands give NaN. -/
def pfMaxSkip (a b : PF) : PF :=
  if a.isNan then b else if b.isNan then a else if pfLeB a b then b else a

/-- The comparison delta > 0 as pandas evaluates it (False on NaN). -/
def pfPos : PF → Bool
  | .pinf => true
  | .val q => decide (0 < q)
  | _ => false

/-- The comparison delta < 0 as pandas evaluates it (False on NaN). -/
def pfIsNeg : PF → Bool
  | .ninf => true
  | .val q => decide (q < 0)
  | _ => false

abbrev Col := List PF

/-- Series.shift(1): every value moves down one row, first row NaN. -/
def shiftOne (c : Col) : Col :=
  match c with
  | [] => []
  | _ => .nan :: c.dropLast

/-- Series.diff(): first row NaN, then the difference with the previous row. -/
def diffCol (c : Col) : Col :=
  match c with
  | [] => []
  | x :: xs => .nan :: List.zipWith pfSub xs (x :: xs)

/-- Series.pct_change() * 100: first row NaN, then (current/previous - 1)*100. -/
def pctChange100 (c : Col) : Col :=
  match c with
  | [] => []
  | x :: xs =>
      .nan :: List.zipWith (fun a b => pfScale 100 (pfSub (pfDiv a b) (.val 1))) xs (x :: xs)

/-- The trailing window of width w ending at row i. -/
def windowAt (w : ℕ) (xs : Col) (i : ℕ) : Col :=
  (xs.take (i + 1)).drop (i + 1 - w)

/-- Series.rolling(w, min_periods=minp).mean() at row i: the mean of the
non-NaN observations in the trailing window, NaN when there are fewer
than min_periods of them (pandas needs at least one even for
min_periods=0). -/
def rollingMeanAt (w minp : ℕ) (xs : Col) (i : ℕ) : PF :=
  let obs := (windowAt w xs i).filter (fun x => !x.isNan)
  if obs.length < max minp 1 then .nan
  else pfDiv (obs.foldl pfAdd (.val 0)) (.val obs.length)

def rollingMean (w minp : ℕ) (xs : Col) : Col :=
  (List.range xs.length).map (rollingMeanAt w minp xs)

/-- The recursion of Series.ewm(span, adjust=False).mean() after the seed:
y = (1-alpha)*prev + alpha*x.  A NaN input row yields NaN and keeps the
state (faithful to pandas on NaN-free data, which is what the
theorems assume of the Close column). -/
def emaFrom (a : ℚ) (m : ℚ) : Col → Col
  | [] => []
  | .val q :: xs =>
      let y := (1 - a) * m + a * q
      .val y :: emaFrom a y xs
  | _ :: xs => .nan :: emaFrom a m xs

/-- Series.ewm(span, adjust=False).mean(): the first valid value seeds the
recursion, alpha = 2/(span+1). -/
def emaCol (span : ℕ) : Col → Col
  | [] => []
  | .val q :: xs => .val q :: emaFrom (2 / ((span : ℚ) + 1)) q xs
  | _ :: xs => .nan :: emaCol span xs

/-- forex.py line 121, commodities.py line 139, Page_forex.py line 311:
Close.rolling(window=w, min_periods=1).mean(). -/
def smaMinp1 (w : ℕ) (close : Col) : Col := rollingMean w 1 close

/-- stock.py line 141, Page_price.py line 168:
Close.rolling(window).mean() with the pandas default min_periods,
which equals the window size. -/
def smaDefault (w : ℕ) (close : Col) : Col := rollingMean w w close

/-- commodities.py lines 144-145, forex.py lines 126-127: the true range
column, max over the three candidates with the previous close obtained
by Close.shift(1); pd.concat(...).max(axis=1) skips NaN. -/
def trCol (high low close : Col) : Col :=
  let prev := shiftOne close
  List.zipWith pfMaxSkip (List.zipWith pfSub high low)
    (List.zipWith pfMaxSkip
      (List.zipWith (fun h p => pfAbs (pfSub h p)) high prev)
      (List.zipWith (fun l p => pfAbs (pfSub l p)) low prev))

/-- commodities.py line 146, forex.py line 128: ATR = TR.rolling(14, min_periods=1).mean(). -/
def atrCol (high low close : Col) : Col := rollingMean 14 1 (trCol high low close)

/-- commodities.py lines 148-150, forex.py lines 130-132: MACD = EMA12 - EMA26 of Close. -/
def macdCol (close : Col) : Col :=
  List.zipWith pfSub (emaCol 12 close) (emaCol 26 close)

/-- commodities.py line 151, forex.py line 133: Signal = EMA9 of the MACD column. -/
def signalCol (close : Col) : Col := emaCol 9 (macdCol close)

/-- commodities.py line 152, forex.py line 134: MACD_Hist = MACD - Signal. -/
def macdHistCol (close : Col) : Col :=
  List.zipWith pfSub (macdCol close) (signalCol close)

/-- delta.where(delta > 0, 0): keep positive deltas, else 0 (NaN compares False). -/
def posPart (d : PF) : PF := if pfPos d then d else .val 0

/-- Negated delta.where(delta < 0, 0): the magnitude of a negative delta,
else 0.  The sources negate either each masked delta (Page_forex.py) or
the rolling mean of the masked deltas (forex.py, commodities.py); the
two agree since the mean commutes with negation. -/
def negMag (d : PF) : PF := if pfIsNeg d then pfNeg d else .val 0

/-- gain = (positive part of delta).rolling(14, min_periods=1).mean(). -/
def gainCol (delta : Col) : Col := rollingMean 14 1 (delta.map posPart)

/-- loss = (magnitude of negative delta).rolling(14, min_periods=1).mean(). -/
def lossCol (delta : Col) : Col := rollingMean 14 1 (delta.map negMag)

/-- RSI = 100 - 100/(1 + gain/loss), row-wise from a delta series. -/
def rsiFromDelta (delta : Col) : Col :=
  List.zipWith
    (fun g l => pfSub (.val 100) (pfDiv (.val 100) (pfAdd (.val 1) (pfDiv g l))))
    (gainCol delta) (lossCol delta)

/-- forex.py lines 135-140, Page_forex.py lines 337-349: the RSI branch
whose delta is Close.pct_change()*100. -/
def rsiForex (close : Col) : Col := rsiFromDelta (pctChange100 close)

/-- commodities.py lines 153-158: the RSI branch of compute_indicators,
whose delta is Close.diff(). -/
def rsiCommodities (close : Col) : Col := rsiFromDelta (diffCol close)

/-! ## Data frames and compute_indicators (commodities.py lines 133-159) -/

abbrev Frame := List (String × Col)

def colNames (f : Frame) : List String := f.map Prod.fst

/-- df[name] read access: None models the KeyError pandas raises when the
column is absent. -/
def getCol (f : Frame) (nm : String) : Option Col :=
  (f.find? (fun p => p.1 == nm)).map Prod.snd

/-- df[name] = col: overwrite in place when the column exists, else append
at the end (pandas column assignment). -/
def setCol (f : Frame) (nm : String) (c : Col) : Frame :=
  if f.any (fun p => p.1 == nm) then
    f.map (fun p => if p.1 == nm then (nm, c) else p)
  else f ++ [(nm, c)]

def hasPrefixL : List Char → List Char → Bool
  | [], _ => true
  | _ :: _, [] => false
  | p :: ps, c :: cs => p == c && hasPrefixL ps cs

def containsL (pat : List Char) : List Char → Bool
  | [] => hasPrefixL pat []
  | c :: cs => hasPrefixL pat (c :: cs) || containsL pat cs

/-- Python substring containment, pat in s, for a non-empty pattern. -/
def strContains (s pat : String) : Bool := containsL pat.data s.data

/-- str.split(sep) for a one-character separator, Python semantics
(empty pieces are kept). -/
def splitOnChar (sep : Char) : List Char → List (List Char)
  | [] => [[]]
  | c :: cs =>
      let r := splitOnChar sep cs
      if c == sep then [] :: r
      else
        match r with
        | [] => [[c]]
        | h :: t => (c :: h) :: t

def charDigit? (c : Char) : Option ℕ :=
  if '0' ≤ c ∧ c ≤ '9' then some (c.toNat - '0'.toNat) else none

/-- Python int(s) on an unsigned numeral (the indicator codes only ever
carry plain digit suffixes): None models the ValueError. -/
def pyToNat? (cs : List Char) : Option ℕ :=
  if cs = [] then none
  else
    cs.foldl
      (fun acc c =>
        match acc, charDigit? c with
        | some n, some d => some (n * 10 + d)
        | _, _ => none)
      (some 0)

/-- int(ind.split("_")[1]) as a window/span: None models the IndexError
when there is no underscore part, the ValueError when it is not a
numeral, and the ValueError pandas raises on a window/span of 0. -/
def parseSpan (ind : String) : Option ℕ :=
  match (splitOnChar '_' ind.data).get? 1 with
  | none => none
  | some t =>
      match pyToNat? t with
      | none => none
      | some 0 => none
      | some w => some w

/-- One iteration of the indicator loop of compute_indicators
(commodities.py lines 136-158).  The branches are an elif chain keyed
by substring containment for SMA/EMA and equality for ATR/MACD/RSI;
an error value models the exception the Python line would raise. -/
def applyIndicator (f : Frame) (ind : String) : Except String Frame :=
  if strContains ind "SMA" then
    match parseSpan ind, getCol f "Close" with
    | some w, some close => .ok (setCol f ind (smaMinp1 w close))
    | _, _ => .error "SMA"
  else if strContains ind "EMA" then
    match parseSpan ind, getCol f "Close" with
    | some w, some close => .ok (setCol f ind (emaCol w close))
    | _, _ => .error "EMA"
  else if ind == "ATR" then
    match getCol f "High", getCol f "Low", getCol f "Close" with
    | some h, some l, some c => .ok (setCol f "ATR" (atrCol h l c))
    | _, _, _ => .error "ATR"
  else if ind == "MACD" then
    match getCol f "Close" with
    | some c =>
        let f1 := setCol f "MACD" (macdCol c)
        match getCol f1 "MACD" with
        | some m =>
            let f2 := setCol f1 "Signal" (emaCol 9 m)
            match getCol f2 "MACD", getCol f2 "Signal" with
            | some m2, some s => .ok (setCol f2 "MACD_Hist" (List.zipWith pfSub m2 s))
            | _, _ => .error "MACD"
        | none => .error "MACD"
    | none => .error "MACD"
  else if ind == "RSI" then
    match getCol f "Close" with
    | some c => .ok (setCol f "RSI" (rsiCommodities c))
    | none => .error "RSI"
  else .ok f

/-- commodities.py lines 133-159: compute_indicators(df, indicators)
works on df.copy() and applies every requested code in order. -/
def compute_indicators (f : Frame) (inds : List String) : Except String Frame :=
  match inds with
  | [] => .ok f
  | ind :: rest =>
      match applyIndicator f ind with
      | .ok f2 => compute_indicators f2 rest
      | .error e => .error e

/-- The column names an applyIndicator branch appends when they are fresh. -/
def newColsOf (code : String) : List String :=
  if strContains code "SMA" then [code]
  else if strContains code "EMA" then [code]
  else if code == "ATR" then ["ATR"]
  else if code == "MACD" then ["MACD", "Signal", "MACD_Hist"]
  else if code == "RSI" then ["RSI"]
  else []

def namesOf (r : Except String Frame) : List String :=
  match r with
  | .ok g => colNames g
  | .error _ => []

/-! ## Period and interval selection (forex.py lines 63-70,
Page_forex.py lines 119-139, commodities.py lines 81-86) -/

def period_options : List String :=
  ["1d", "5d", "1mo", "3mo", "6mo", "1y", "2y", "5y", "10y", "ytd", "max"]

def interval_options : List String :=
  ["1m", "2m", "5m", "15m", "30m", "60m", "90m", "1h", "1d", "5d", "1wk", "1mo", "3mo"]

/-- The interval dropdown contents: when the chosen period itself occurs in
the interval list, the list is cut at its position, otherwise the full
list is offered unchanged. -/
def availableIntervals (p : String) : List String :=
  if interval_options.contains p then
    interval_options.take (interval_options.indexOf p)
  else interval_options

/-! ## Caching (st.cache_data on src/main.py fetch_history, and
st.cache_data(ttl=600) on macro_dashboard.py fetch_ticker_data) -/

/-- A st.cache_data memo table for one operation, plus a count of the
provider calls performed so far. -/
structure Cache (α β : Type) where
  entries : List (α × β)
  calls : ℕ

/-- A call through st.cache_data: return the memoized value on a key hit,
otherwise call the provider once and append the entry. -/
def cachedCall [DecidableEq α] (provider : α → β) (k : α) (s : Cache α β) :
    β × Cache α β :=
  match s.entries.find? (fun e => decide (e.1 = k)) with
  | some e => (e.2, s)
  | none =>
      let v := provider k
      (v, ⟨s.entries ++ [(k, v)], s.calls + 1⟩)

/-- A st.cache_data(ttl=...) memo table: entries carry their insertion time. -/
structure TCache (α β : Type) where
  entries : List (α × β × ℕ)
  calls : ℕ

/-- A call through st.cache_data with a time-to-live: an entry only hits
while now - insertion time is below the ttl. -/
def cachedCallTTL [DecidableEq α] (ttl : ℕ) (provider : α → β) (k : α)
    (now : ℕ) (s : TCache α β) : β × TCache α β :=
  match s.entries.find? (fun e => decide (e.1 = k) && decide (now - e.2.2 < ttl)) with
  | some e => (e.2.1, s)
  | none =>
      let v := provider k
      (v, ⟨s.entries ++ [(k, v, now)], s.calls + 1⟩)

/-! ## Fetch boundary (src/main.py lines 13-15; the functions module the
pages import is not under src, so its fetchers are modelled from the
spec) -/

/-- The outcome of running a Python call: a returned value or an exception
propagating across the call boundary. -/
inductive PyResult (ε α : Type) where
  | ok (a : α) : PyResult ε α
  | exn (e : ε) : PyResult ε α
deriving DecidableEq, Repr

def PyResult.raised : PyResult ε α → Bool
  | .exn _ => true
  | _ => false

structure HistArgs where
  symbol : String
  period : String
  interval : String
deriving DecidableEq, Repr

/-- src/main.py lines 13-15: fetch_history is a bare provider call
(yf.Ticker(symbol).history(...)) with no try/except; the st.cache_data
decorator does not catch exceptions either, so a provider exception
propagates to the caller unchanged. -/
def main_fetch_history (provider : HistArgs → PyResult String Frame)
    (a : HistArgs) : PyResult String Frame :=
  provider a

/-- try/except capture: an exception becomes a returned error value. -/
def captureErrors (r : PyResult String α) : PyResult String (α ⊕ String) :=
  match r with
  | .ok v => .ok (.inl v)
  | .exn e => .ok (.inr e)

/-- Modelled from the spec: functions.fetch_history (the functions module
is imported by every page but absent from src).  Per the spec, a
transport or parsing failure is captured as an Error value and
returned, never thrown across the boundary; callers test the result
with isinstance(result, Exception). -/
def functions_fetch_history (provider : HistArgs → PyResult String Frame)
    (a : HistArgs) : PyResult String (Frame ⊕ String) :=
  captureErrors (provider a)

/-- Modelled from the spec: functions.fetch_info (absent from src), same
error-capturing boundary around the quote-snapshot provider call. -/
def functions_fetch_info (provider : String → PyResult String (List (String × String)))
    (symbol : String) : PyResult String ((List (String × String)) ⊕ String) :=
  captureErrors (provider symbol)

/-- Modelled from the spec: functions.fetch_table (absent from src), same
error-capturing boundary around the HTML-table scrape. -/
def functions_fetch_table (provider : String → PyResult String Frame)
    (url : String) : PyResult String (Frame ⊕ String) :=
  captureErrors (provider url)

/-- Every entry of a column is a finite value. -/
def allVal (c : Col) : Prop := ∀ x ∈ c, x.isVal = true

/-- Every entry of a column is NaN or a finite value (no infinities). -/
def valOrNan (c : Col) : Prop := ∀ x ∈ c, x = PF.nan ∨ x.isVal = true

/-- Every entry of a column is a nonnegative finite value. -/
def nonnegVal (c : Col) : Prop := ∀ x ∈ c, ∃ q : ℚ, 0 ≤ q ∧ x = PF.val q

/-! ## Helper lemmas -/

theorem length_rollingMean (w p : ℕ) (xs : Col) :
    (rollingMean w p xs).length = xs.length := by
  simp [rollingMean]

theorem getD_rollingMean (w p : ℕ) (xs : Col) (i : ℕ) (h : i < xs.length) :
    (rollingMean w p xs).getD i PF.nan = rollingMeanAt w p xs i := by
  have h2 : i < (rollingMean w p xs).length := by
    rw [length_rollingMean]; exact h
  rw [List.getD_eq_getElem _ _ h2]
  simp [rollingMean]

theorem getD_zipWith (f : PF → PF → PF) (l1 l2 : Col) (i : ℕ)
    (h1 : i < l1.length) (h2 : i < l2.length) :
    (List.zipWith f l1 l2).getD i PF.nan = f (l1.getD i PF.nan) (l2.getD i PF.nan) := by
  have hz : i < (List.zipWith f l1 l2).length := by
    rw [List.length_zipWith]; omega
  rw [List.getD_eq_getElem _ _ hz, List.getD_eq_getElem _ _ h1, List.getD_eq_getElem _ _ h2]
  exact List.getElem_zipWith

theorem mem_zipWith_elim {f : PF → PF → PF} :
    ∀ {l1 l2 : Col} {x : PF}, x ∈ List.zipWith f l1 l2 →
      ∃ a b, a ∈ l1 ∧ b ∈ l2 ∧ x = f a b := by
  intro l1
  induction l1 with
  | nil => intro l2 x hx; simp [List.zipWith] at hx
  | cons a t ih =>
      intro l2 x hx
      cases l2 with
      | nil => simp [List.zipWith] at hx
      | cons b t2 =>
          simp only [List.zipWith, List.mem_cons] at hx
          rcases hx with h | h
          · exact ⟨a, b, List.mem_cons_self a t, List.mem_cons_self b t2, h⟩
          · obtain ⟨u, v, hu, hv, rfl⟩ := ih h
            exact ⟨u, v, List.mem_cons_of_mem a hu, List.mem_cons_of_mem b hv, rfl⟩

theorem length_emaFrom (a m : ℚ) (xs : Col) : (emaFrom a m xs).length = xs.length := by
  induction xs generalizing m with
  | nil => rfl
  | cons x t ih => cases x <;> simp [emaFrom, ih]

theorem length_emaCol (span : ℕ) (xs : Col) : (emaCol span xs).length = xs.length := by
  induction xs with
  | nil => rfl
  | cons x t ih => cases x <;> simp [emaCol, length_emaFrom, ih]

theorem length_macdCol (close : Col) : (macdCol close).length = close.length := by
  simp [macdCol, List.length_zipWith, length_emaCol]

theorem length_signalCol (close : Col) : (signalCol close).length = close.length := by
  simp [signalCol, length_emaCol, length_macdCol]

theorem length_macdHistCol (close : Col) : (macdHistCol close).length = close.length := by
  simp [macdHistCol, List.length_zipWith, length_macdCol, length_signalCol]

theorem length_shiftOne (c : Col) : (shiftOne c).length = c.length := by
  cases c with
  | nil => rfl
  | cons x t => simp [shiftOne]

theorem length_diffCol (c : Col) : (diffCol c).length = c.length := by
  cases c with
  | nil => rfl
  | cons x t => simp [diffCol, List.length_zipWith]

theorem length_pctChange100 (c : Col) : (pctChange100 c).length = c.length := by
  cases c with
  | nil => rfl
  | cons x t => simp [pctChange100, List.length_zipWith]

theorem length_windowAt (w : ℕ) (xs : Col) (i : ℕ) (h : i < xs.length) :
    (windowAt w xs i).length = min w (i + 1) := by
  simp [windowAt, List.length_drop, List.length_take]
  omega

theorem allVal_windowAt {xs : Col} (h : allVal xs) (w i : ℕ) :
    allVal (windowAt w xs i) := by
  intro x hx
  have hx2 : x ∈ xs.take (i + 1) := (List.drop_sublist _ _).subset hx
  exact h x ((List.take_sublist _ _).subset hx2)

theorem foldl_pfAdd_allVal :
    ∀ (xs : Col), allVal xs → ∀ q : ℚ, ∃ s : ℚ, xs.foldl pfAdd (PF.val q) = PF.val s := by
  intro xs
  induction xs with
  | nil => intro _ q; exact ⟨q, rfl⟩
  | cons x t ih =>
      intro h q
      have hx := h x (List.mem_cons_self x t)
      cases x with
      | val r =>
          obtain ⟨s, hs⟩ := ih (fun y hy => h y (List.mem_cons_of_mem _ hy)) (q + r)
          exact ⟨s, by simpa [pfAdd] using hs⟩
      | nan => simp [PF.isVal] at hx
      | pinf => simp [PF.isVal] at hx
      | ninf => simp [PF.isVal] at hx

theorem rollingMeanAt_minp1_isVal {xs : Col} (h : allVal xs) (w i : ℕ)
    (hw : 1 ≤ w) (hi : i < xs.length) :
    (rollingMeanAt w 1 xs i).isVal = true := by
  unfold rollingMeanAt
  have hfilter : (windowAt w xs i).filter (fun x => !x.isNan) = windowAt w xs i := by
    apply List.filter_eq_self.mpr
    intro a ha
    have := allVal_windowAt h w i a ha
    cases a <;> simp_all [PF.isVal, PF.isNan]
  rw [hfilter]
  have hlen : (windowAt w xs i).length = min w (i + 1) := length_windowAt w xs i hi
  have hpos : 1 ≤ (windowAt w xs i).length := by omega
  have hnotlt : ¬ (windowAt w xs i).length < max 1 1 := by omega
  simp only [hnotlt, if_false]
  obtain ⟨s, hs⟩ := foldl_pfAdd_allVal _ (allVal_windowAt h w i) 0
  rw [hs]
  have h0 : (windowAt w xs i).length ≠ 0 := by omega
  have hne : ((windowAt w xs i).length : ℚ) ≠ 0 := by exact_mod_cast h0
  simp [pfDiv, hne, PF.isVal]

theorem allVal_rollingMean_minp1 {xs : Col} (h : allVal xs) (w : ℕ) (hw : 1 ≤ w) :
    allVal (rollingMean w 1 xs) := by
  intro y hy
  simp only [rollingMean, List.mem_map, List.mem_range] at hy
  obtain ⟨i, hi, rfl⟩ := hy
  exact rollingMeanAt_minp1_isVal h w i hw hi

theorem allVal_emaFrom {xs : Col} (h : allVal xs) (a m : ℚ) :
    allVal (emaFrom a m xs) := by
  induction xs generalizing m with
  | nil => intro y hy; simp [emaFrom] at hy
  | cons x t ih =>
      have hx := h x (List.mem_cons_self x t)
      have ht : allVal t := fun y hy => h y (List.mem_cons_of_mem _ hy)
      cases x with
      | val q =>
          intro y hy
          simp only [emaFrom, List.mem_cons] at hy
          rcases hy with rfl | hy
          · rfl
          · exact ih ht _ y hy
      | nan => simp [PF.isVal] at hx
      | pinf => simp [PF.isVal] at hx
      | ninf => simp [PF.isVal] at hx

theorem allVal_emaCol {xs : Col} (h : allVal xs) (span : ℕ) :
    allVal (emaCol span xs) := by
  cases xs with
  | nil => intro y hy; simp [emaCol] at hy
  | cons x t =>
      have hx := h x (List.mem_cons_self x t)
      have ht : allVal t := fun y hy => h y (List.mem_cons_of_mem _ hy)
      cases x with
      | val q =>
          intro y hy
          simp only [emaCol, List.mem_cons] at hy
          rcases hy with rfl | hy
          · rfl
          · exact allVal_emaFrom ht _ _ y hy
      | nan => simp [PF.isVal] at hx
      | pinf => simp [PF.isVal] at hx
      | ninf => simp [PF.isVal] at hx

theorem rollingMeanAt_default_nan (w : ℕ) {xs : Col} (i : ℕ)
    (hi : i < xs.length) (hlt : i + 1 < w) :
    rollingMeanAt w w xs i = PF.nan := by
  unfold rollingMeanAt
  have hlen : (windowAt w xs i).length = min w (i + 1) := length_windowAt w xs i hi
  have hle : ((windowAt w xs i).filter (fun x => !x.isNan)).length
      ≤ (windowAt w xs i).length := List.length_filter_le _ _
  have hcond : ((windowAt w xs i).filter (fun x => !x.isNan)).length < max w 1 := by omega
  simp [hcond]

theorem pfSub_nan_right (x : PF) : pfSub x PF.nan = PF.nan := by
  cases x <;> rfl

theorem pfMaxSkip_nan_right (a : PF) : pfMaxSkip a PF.nan = a := by
  cases a <;> rfl

theorem getD_shiftOne_zero (c : Col) (h : 0 < c.length) :
    (shiftOne c).getD 0 PF.nan = PF.nan := by
  cases c with
  | nil => simp at h
  | cons x t => rfl

theorem getD_shiftOne (c : Col) (i : ℕ) (h0 : 0 < i) (h : i < c.length) :
    (shiftOne c).getD i PF.nan = c.getD (i - 1) PF.nan := by
  cases c with
  | nil => simp at h
  | cons x t =>
      obtain ⟨j, rfl⟩ : ∃ j, i = j + 1 := ⟨i - 1, by omega⟩
      have hj : j < ((x :: t) : Col).dropLast.length := by
        simp only [List.length_dropLast, List.length_cons] at *
        omega
      have hj2 : j < ((x :: t) : Col).length := by
        simp only [List.length_dropLast, List.length_cons] at *
        omega
      show (((x :: t) : Col).dropLast).getD j PF.nan = ((x :: t) : Col).getD j PF.nan
      rw [List.getD_eq_getElem _ _ hj, List.getD_eq_getElem _ _ hj2]
      exact List.getElem_dropLast _ j hj

/-! ## Claim theorems -/

/-- Claim C1 (corrected).  Under the minimum-periods-1 indicator loops
(forex.py lines 118-124, commodities.py lines 137-142, Page_forex.py
lines 308-314) the SMA_n and EMA_n columns are defined (non-NaN) at
every row of a NaN-free Close series; but the stock.py lines 138-144 and
Page_price.py lines 165-171 Securities Analysis loop computes SMA_n with
the pandas default minimum periods, equal to n, so its SMA_n values at
rows before index n-1 are undefined, while its EMA_n (plain ewm) is
still defined at every row. -/
theorem claim1_sma_ema_definedness (close : Col) (w : ℕ)
    (hw : 1 ≤ w) (h : allVal close) :
    ((smaMinp1 w close).length = close.length ∧ ∀ x ∈ smaMinp1 w close, x ≠ PF.nan)
    ∧ (∀ span : ℕ,
        (emaCol span close).length = close.length ∧ ∀ x ∈ emaCol span close, x ≠ PF.nan)
    ∧ (∀ i : ℕ, i < close.length → i + 1 < w →
        (smaDefault w close).getD i PF.nan = PF.nan) := by
  refine ⟨⟨length_rollingMean w 1 close, ?_⟩, fun span => ⟨length_emaCol span close, ?_⟩, ?_⟩
  · intro x hx
    have := allVal_rollingMean_minp1 h w hw x hx
    cases x <;> simp_all [PF.isVal]
  · intro x hx
    have := allVal_emaCol h span x hx
    cases x <;> simp_all [PF.isVal]
  · intro i hi hlt
    rw [show smaDefault w close = rollingMean w w close from rfl,
      getD_rollingMean w w close i hi]
    exact rollingMeanAt_default_nan w i hi hlt

/-- Claim C1 counterexample: in the stock.py Securities Analysis loop the
code SMA_20 parses to window 20 and, on a one-row series, produces an
undefined (NaN) value at row 0, so the produced indicator column is not
defined at every row. -/
theorem claim1_counterexample :
    parseSpan "SMA_20" = some 20 ∧ smaDefault 20 [PF.val 10] = [PF.nan] := by
  constructor
  · decide
  · rfl

theorem claim1_witness :
    (1 ≤ 3 ∧ allVal [PF.val 10, PF.val 11])
    ∧ (smaMinp1 3 [PF.val 10, PF.val 11]).length = 2 :=
  ⟨⟨by norm_num, by unfold allVal; decide⟩,
    (claim1_sma_ema_definedness [PF.val 10, PF.val 11] 3 (by norm_num)
      (by unfold allVal; decide)).1.1⟩

/-- Claim C4 (confirmed).  In every MACD branch the MACD_Hist column is
exactly the row-wise difference of the MACD and Signal columns, where
MACD is the row-wise difference of the span-12 and span-26 EMAs of
Close and Signal is the span-9 EMA of the MACD column. -/
theorem claim4_macd_hist (close : Col) (i : ℕ) (hi : i < close.length) :
    (macdHistCol close).getD i PF.nan
      = pfSub ((macdCol close).getD i PF.nan) ((signalCol close).getD i PF.nan)
    ∧ (macdCol close).getD i PF.nan
      = pfSub ((emaCol 12 close).getD i PF.nan) ((emaCol 26 close).getD i PF.nan)
    ∧ signalCol close = emaCol 9 (macdCol close) := by
  refine ⟨?_, ?_, rfl⟩
  · exact getD_zipWith pfSub _ _ i (by rw [length_macdCol]; exact hi)
      (by rw [length_signalCol]; exact hi)
  · exact getD_zipWith pfSub _ _ i (by rw [length_emaCol]; exact hi)
      (by rw [length_emaCol]; exact hi)

theorem claim4_witness :
    (macdHistCol [PF.val 3, PF.val 4]).getD 1 PF.nan
      = pfSub ((macdCol [PF.val 3, PF.val 4]).getD 1 PF.nan)
          ((signalCol [PF.val 3, PF.val 4]).getD 1 PF.nan) :=
  (claim4_macd_hist [PF.val 3, PF.val 4] 1 (by norm_num)).1

/-- Claim C5 (confirmed).  In the ATR branches (commodities.py lines
143-146, forex.py lines 125-128, Page_forex.py lines 316-327) the true
range at row 0 degenerates to high - low (the shifted previous close is
undefined there and the row-wise max skips it), at every later row it is
the maximum of high - low, the absolute difference of high and the
previous close, and the absolute difference of low and the previous
close, and the ATR column is the rolling mean of true range over window
14 with minimum periods 1. -/
theorem claim5_atr (high low close : Col)
    (hh : high.length = close.length) (hl : low.length = close.length) :
    (0 < close.length →
      (trCol high low close).getD 0 PF.nan
        = pfSub (high.getD 0 PF.nan) (low.getD 0 PF.nan))
    ∧ (∀ i : ℕ, 0 < i → i < close.length →
        (trCol high low close).getD i PF.nan
          = pfMaxSkip (pfSub (high.getD i PF.nan) (low.getD i PF.nan))
              (pfMaxSkip
                (pfAbs (pfSub (high.getD i PF.nan) (close.getD (i - 1) PF.nan)))
                (pfAbs (pfSub (low.getD i PF.nan) (close.getD (i - 1) PF.nan)))))
    ∧ atrCol high low close = rollingMean 14 1 (trCol high low close) := by
  have hprev : (shiftOne close).length = close.length := length_shiftOne close
  refine ⟨?_, ?_, rfl⟩
  · intro hpos
    show (List.zipWith pfMaxSkip _ _).getD 0 PF.nan = _
    rw [getD_zipWith pfMaxSkip _ _ 0 (by simp [List.length_zipWith]; omega)
        (by simp [List.length_zipWith, hprev]; omega)]
    rw [getD_zipWith pfSub high low 0 (by omega) (by omega)]
    rw [getD_zipWith pfMaxSkip _ _ 0 (by simp [List.length_zipWith, hprev]; omega)
        (by simp [List.length_zipWith, hprev]; omega)]
    rw [getD_zipWith _ high (shiftOne close) 0 (by omega) (by omega)]
    rw [getD_zipWith _ low (shiftOne close) 0 (by omega) (by omega)]
    rw [getD_shiftOne_zero close hpos]
    rw [pfSub_nan_right, pfSub_nan_right]
    show pfMaxSkip _ (pfMaxSkip PF.nan PF.nan) = _
    rw [pfMaxSkip_nan_right, pfMaxSkip_nan_right]
  · intro i h0 hi
    show (List.zipWith pfMaxSkip _ _).getD i PF.nan = _
    rw [getD_zipWith pfMaxSkip _ _ i (by simp [List.length_zipWith]; omega)
        (by simp [List.length_zipWith, hprev]; omega)]
    rw [getD_zipWith pfSub high low i (by omega) (by omega)]
    rw [getD_zipWith pfMaxSkip _ _ i (by simp [List.length_zipWith, hprev]; omega)
        (by simp [List.length_zipWith, hprev]; omega)]
    rw [getD_zipWith _ high (shiftOne close) i (by omega) (by omega)]
    rw [getD_zipWith _ low (shiftOne close) i (by omega) (by omega)]
    rw [getD_shiftOne close i h0 (by omega)]

theorem claim5_witness :
    (trCol [PF.val 5, PF.val 7] [PF.val 3, PF.val 4] [PF.val 4, PF.val 6]).getD 0 PF.nan
      = pfSub (([PF.val 5, PF.val 7] : Col).getD 0 PF.nan)
          (([PF.val 3, PF.val 4] : Col).getD 0 PF.nan) :=
  (claim5_atr [PF.val 5, PF.val 7] [PF.val 3, PF.val 4] [PF.val 4, PF.val 6]
    (by rfl) (by rfl)).1 (by norm_num)

/-- Claim C6 (corrected).  In the forex.py and Page_forex.py RSI branches
the per-row delta is the percent change of Close (times 100); in the
commodities.py compute_indicators RSI branch the delta is the plain
difference Close.diff().  In both, gain is the rolling-14
minimum-periods-1 mean of the positive deltas, loss is the rolling-14
minimum-periods-1 mean of the magnitudes of the negative deltas, and
RSI = 100 - 100/(1 + gain/loss). -/
theorem claim6_rsi_delta (close : Col) :
    rsiForex close
      = List.zipWith
          (fun g l => pfSub (.val 100) (pfDiv (.val 100) (pfAdd (.val 1) (pfDiv g l))))
          (rollingMean 14 1 ((pctChange100 close).map posPart))
          (rollingMean 14 1 ((pctChange100 close).map negMag))
    ∧ rsiCommodities close
      = List.zipWith
          (fun g l => pfSub (.val 100) (pfDiv (.val 100) (pfAdd (.val 1) (pfDiv g l))))
          (rollingMean 14 1 ((diffCol close).map posPart))
          (rollingMean 14 1 ((diffCol close).map negMag)) :=
  ⟨rfl, rfl⟩

/-- Claim C6 counterexample: the commodities.py RSI branch does not use the
percent-change delta — on the Close series 2, 4, 3 it produces 200/3 at
row 2 where the percent-change-delta formula produces 80. -/
theorem claim6_counterexample :
    rsiCommodities [PF.val 2, PF.val 4, PF.val 3]
      ≠ rsiFromDelta (pctChange100 [PF.val 2, PF.val 4, PF.val 3])
    ∧ rsiCommodities [PF.val 2, PF.val 4, PF.val 3] = rsiFromDelta (diffCol [PF.val 2, PF.val 4, PF.val 3]) := by
  constructor
  · norm_num [rsiCommodities, rsiForex, rsiFromDelta, gainCol, lossCol, diffCol,
      pctChange100, rollingMean, rollingMeanAt, windowAt, posPart, negMag, pfPos, pfIsNeg,
      pfDiv, pfAdd, pfSub, pfNeg, pfScale, pfAbs, PF.isNan, List.range_succ]
  · rfl

theorem foldl_pfAdd_zero :
    ∀ (l : Col), (∀ x ∈ l, x = PF.val 0) → l.foldl pfAdd (PF.val 0) = PF.val 0 := by
  intro l
  induction l with
  | nil => intro _; rfl
  | cons x t ih =>
      intro h
      have hx : x = PF.val 0 := h x (List.mem_cons_self x t)
      subst hx
      have : pfAdd (PF.val 0) (PF.val 0) = PF.val 0 := by simp [pfAdd]
      simpa [this] using ih (fun y hy => h y (List.mem_cons_of_mem _ hy))

theorem rollingMean_zero {xs : Col} (hz : ∀ x ∈ xs, x = PF.val 0) :
    ∀ y ∈ rollingMean 14 1 xs, y = PF.val 0 := by
  intro y hy
  simp only [rollingMean, List.mem_map, List.mem_range] at hy
  obtain ⟨i, hi, rfl⟩ := hy
  unfold rollingMeanAt
  have hzw : ∀ x ∈ windowAt 14 xs i, x = PF.val 0 := by
    intro x hx
    have hx2 : x ∈ xs.take (i + 1) := (List.drop_sublist _ _).subset hx
    exact hz x ((List.take_sublist _ _).subset hx2)
  have hfilter : (windowAt 14 xs i).filter (fun x => !x.isNan) = windowAt 14 xs i := by
    apply List.filter_eq_self.mpr
    intro a ha
    rw [hzw a ha]; rfl
  rw [hfilter]
  have hlen : (windowAt 14 xs i).length = min 14 (i + 1) := length_windowAt 14 xs i hi
  have hnotlt : ¬ (windowAt 14 xs i).length < max 1 1 := by omega
  simp only [hnotlt, if_false]
  rw [foldl_pfAdd_zero _ hzw]
  have h0 : (windowAt 14 xs i).length ≠ 0 := by omega
  have hne : ((windowAt 14 xs i).length : ℚ) ≠ 0 := by exact_mod_cast h0
  simp [pfDiv, hne]

theorem pct_const_entries (n : ℕ) (c : ℚ) :
    ∀ x ∈ pctChange100 (List.replicate n (PF.val c)), x = PF.val 0 ∨ x = PF.nan := by
  intro x hx
  cases n with
  | zero => simp [pctChange100] at hx
  | succ m =>
      rw [List.replicate_succ] at hx
      simp only [pctChange100, List.mem_cons] at hx
      rcases hx with rfl | hx
      · right; rfl
      · obtain ⟨a, b, ha, hb, rfl⟩ := mem_zipWith_elim hx
        have ha2 : a = PF.val c := List.eq_of_mem_replicate ha
        have hb2 : b = PF.val c := by
          rcases List.mem_cons.mp hb with rfl | hb3
          · rfl
          · exact List.eq_of_mem_replicate hb3
        subst ha2; subst hb2
        by_cases hc : c = 0
        · right; simp [pfDiv, pfSub, pfAdd, pfNeg, pfScale, hc]
        · left; simp [pfDiv, pfSub, pfAdd, pfNeg, pfScale, hc]

theorem posPart_of_zeroOrNan {x : PF} (hx : x = PF.val 0 ∨ x = PF.nan) :
    posPart x = PF.val 0 := by
  rcases hx with rfl | rfl <;> rfl

theorem negMag_of_zeroOrNan {x : PF} (hx : x = PF.val 0 ∨ x = PF.nan) :
    negMag x = PF.val 0 := by
  rcases hx with rfl | rfl <;> rfl

theorem posPart_nonneg {x : PF} (hx : x = PF.nan ∨ ∃ q : ℚ, x = PF.val q) :
    ∃ q : ℚ, 0 ≤ q ∧ posPart x = PF.val q := by
  rcases hx with rfl | ⟨q, rfl⟩
  · exact ⟨0, le_refl 0, rfl⟩
  · by_cases hq : 0 < q
    · exact ⟨q, le_of_lt hq, by simp [posPart, pfPos, hq]⟩
    · exact ⟨0, le_refl 0, by simp [posPart, pfPos, hq]⟩

theorem negMag_nonneg {x : PF} (hx : x = PF.nan ∨ ∃ q : ℚ, x = PF.val q) :
    ∃ q : ℚ, 0 ≤ q ∧ negMag x = PF.val q := by
  rcases hx with rfl | ⟨q, rfl⟩
  · exact ⟨0, le_refl 0, rfl⟩
  · by_cases hq : q < 0
    · exact ⟨-q, by linarith, by simp [negMag, pfIsNeg, pfNeg, hq]⟩
    · exact ⟨0, le_refl 0, by simp [negMag, pfIsNeg, hq]⟩

theorem pct_valOrNan {closes : List ℚ} (hpos : ∀ q ∈ closes, 0 < q) :
    ∀ x ∈ pctChange100 (closes.map PF.val), x = PF.nan ∨ ∃ q : ℚ, x = PF.val q := by
  intro x hx
  cases closes with
  | nil => simp [pctChange100] at hx
  | cons c cs =>
      simp only [List.map_cons, pctChange100, List.mem_cons] at hx
      rcases hx with rfl | hx
      · left; rfl
      · obtain ⟨a, b, ha, hb, rfl⟩ := mem_zipWith_elim hx
        obtain ⟨qa, hqa, rfl⟩ := List.mem_map.mp ha
        have hb2 : ∃ qb : ℚ, 0 < qb ∧ b = PF.val qb := by
          rcases List.mem_cons.mp hb with rfl | hb3
          · exact ⟨c, hpos c (List.mem_cons_self c cs), rfl⟩
          · obtain ⟨qb, hqb, rfl⟩ := List.mem_map.mp hb3
            exact ⟨qb, hpos qb (List.mem_cons_of_mem _ hqb), rfl⟩
        obtain ⟨qb, hqbpos, rfl⟩ := hb2
        right
        have hqb0 : qb ≠ 0 := ne_of_gt hqbpos
        exact ⟨(qa / qb - 1) * 100, by simp [pfDiv, pfSub, pfAdd, pfNeg, pfScale, hqb0]; ring⟩

theorem foldl_pfAdd_nonneg :
    ∀ (l : Col), nonnegVal l → ∀ q : ℚ, 0 ≤ q →
      ∃ s : ℚ, 0 ≤ s ∧ l.foldl pfAdd (PF.val q) = PF.val s := by
  intro l
  induction l with
  | nil => intro _ q hq; exact ⟨q, hq, rfl⟩
  | cons x t ih =>
      intro h q hq
      obtain ⟨r, hr, rfl⟩ := h x (List.mem_cons_self x t)
      obtain ⟨s, hs, hfold⟩ := ih (fun y hy => h y (List.mem_cons_of_mem _ hy)) (q + r) (by linarith)
      exact ⟨s, hs, by simpa [pfAdd] using hfold⟩

theorem rollingMean_nonneg {xs : Col} (h : nonnegVal xs) (i : ℕ) (hi : i < xs.length) :
    ∃ q : ℚ, 0 ≤ q ∧ (rollingMean 14 1 xs).getD i PF.nan = PF.val q := by
  rw [getD_rollingMean 14 1 xs i hi]
  unfold rollingMeanAt
  have hnn : nonnegVal (windowAt 14 xs i) := by
    intro x hx
    have hx2 : x ∈ xs.take (i + 1) := (List.drop_sublist _ _).subset hx
    exact h x ((List.take_sublist _ _).subset hx2)
  have hfilter : (windowAt 14 xs i).filter (fun x => !x.isNan) = windowAt 14 xs i := by
    apply List.filter_eq_self.mpr
    intro a ha
    obtain ⟨q, _, rfl⟩ := hnn a ha
    rfl
  rw [hfilter]
  have hlen : (windowAt 14 xs i).length = min 14 (i + 1) := length_windowAt 14 xs i hi
  have hnotlt : ¬ (windowAt 14 xs i).length < max 1 1 := by omega
  simp only [hnotlt, if_false]
  obtain ⟨s, hs, hfold⟩ := foldl_pfAdd_nonneg _ hnn 0 (le_refl 0)
  rw [hfold]
  have h0 : (windowAt 14 xs i).length ≠ 0 := by omega
  have hne : ((windowAt 14 xs i).length : ℚ) ≠ 0 := by exact_mod_cast h0
  refine ⟨s / (windowAt 14 xs i).length, ?_, by simp [pfDiv, hne]⟩
  exact div_nonneg hs (by positivity)

/-- Claim C10 (confirmed).  When RSI is requested on a Close series that is
constant (every delta zero, so the rolling gain and rolling loss are
both zero), the RSI value is NaN at every row — the 0/0 relative
strength — not 100; and on a positive Close series an RSI value of 100
arises only when the rolling loss is zero and the rolling gain is
positive. -/
theorem claim10_rsi_zero_over_zero (n : ℕ) (c : ℚ) (closes : List ℚ) (i : ℕ)
    (hpos : ∀ q ∈ closes, 0 < q) :
    (∀ x ∈ rsiForex (List.replicate n (PF.val c)), x = PF.nan)
    ∧ ((rsiForex (closes.map PF.val)).getD i PF.nan = PF.val 100 →
        (lossCol (pctChange100 (closes.map PF.val))).getD i PF.nan = PF.val 0
        ∧ pfPos ((gainCol (pctChange100 (closes.map PF.val))).getD i PF.nan) = true) := by
  constructor
  · intro x hx
    have hgz : ∀ y ∈ gainCol (pctChange100 (List.replicate n (PF.val c))), y = PF.val 0 := by
      apply rollingMean_zero
      intro y hy
      obtain ⟨z, hz, rfl⟩ := List.mem_map.mp hy
      exact posPart_of_zeroOrNan (pct_const_entries n c z hz)
    have hlz : ∀ y ∈ lossCol (pctChange100 (List.replicate n (PF.val c))), y = PF.val 0 := by
      apply rollingMean_zero
      intro y hy
      obtain ⟨z, hz, rfl⟩ := List.mem_map.mp hy
      exact negMag_of_zeroOrNan (pct_const_entries n c z hz)
    obtain ⟨g, l, hg, hl, rfl⟩ := mem_zipWith_elim hx
    rw [hgz g hg, hlz l hl]
    norm_num [pfDiv, pfAdd, pfSub, pfNeg]
  · intro h100
    have hlen : (pctChange100 (closes.map PF.val)).length = closes.length := by
      rw [length_pctChange100, List.length_map]
    have hnn_gain : nonnegVal ((pctChange100 (closes.map PF.val)).map posPart) := by
      intro y hy
      obtain ⟨z, hz, rfl⟩ := List.mem_map.mp hy
      exact posPart_nonneg (pct_valOrNan hpos z hz)
    have hnn_loss : nonnegVal ((pctChange100 (closes.map PF.val)).map negMag) := by
      intro y hy
      obtain ⟨z, hz, rfl⟩ := List.mem_map.mp hy
      exact negMag_nonneg (pct_valOrNan hpos z hz)
    have hlg : (gainCol (pctChange100 (closes.map PF.val))).length = closes.length := by
      simp [gainCol, length_rollingMean, hlen, List.length_map]
    have hll : (lossCol (pctChange100 (closes.map PF.val))).length = closes.length := by
      simp [lossCol, length_rollingMean, hlen, List.length_map]
    have hi : i < closes.length := by
      by_contra hge
      push_neg at hge
      have hlenr : (rsiForex (closes.map PF.val)).length ≤ i := by
        simp only [rsiForex, rsiFromDelta, List.length_zipWith, hlg, hll]
        omega
      rw [List.getD_eq_default _ _ hlenr] at h100
      exact PF.noConfusion h100
    obtain ⟨g, hg0, hgv⟩ := rollingMean_nonneg hnn_gain i
      (by rw [List.length_map, hlen]; exact hi)
    obtain ⟨l, hl0, hlv⟩ := rollingMean_nonneg hnn_loss i
      (by rw [List.length_map, hlen]; exact hi)
    have hgv2 : (gainCol (pctChange100 (closes.map PF.val))).getD i PF.nan = PF.val g := hgv
    have hlv2 : (lossCol (pctChange100 (closes.map PF.val))).getD i PF.nan = PF.val l := hlv
    have hzip : (rsiForex (closes.map PF.val)).getD i PF.nan
        = pfSub (.val 100) (pfDiv (.val 100) (pfAdd (.val 1)
            (pfDiv ((gainCol (pctChange100 (closes.map PF.val))).getD i PF.nan)
              ((lossCol (pctChange100 (closes.map PF.val))).getD i PF.nan)))) := by
      show (List.zipWith _ _ _).getD i PF.nan = _
      exact getD_zipWith _ _ _ i (by rw [hlg]; exact hi) (by rw [hll]; exact hi)
    rw [hzip, hgv2, hlv2] at h100
    by_cases hlz : l = 0
    · subst hlz
      by_cases hgpos : 0 < g
      · refine ⟨hlv2, ?_⟩
        rw [hgv2]
        simp [pfPos, hgpos]
      · exfalso
        have hg00 : g = 0 := le_antisymm (not_lt.mp hgpos) hg0
        subst hg00
        norm_num [pfDiv, pfAdd, pfSub, pfNeg] at h100
        exact PF.noConfusion h100
    · exfalso
      have hlpos : 0 < l := lt_of_le_of_ne hl0 (Ne.symm hlz)
      have hql : (0:ℚ) ≤ g / l := div_nonneg hg0 (le_of_lt hlpos)
      have hne1 : (1:ℚ) + g / l ≠ 0 := by positivity
      have e1 : pfDiv (PF.val g) (PF.val l) = PF.val (g / l) := by
        simp [pfDiv, hlz]
      have e2 : pfAdd (PF.val 1) (PF.val (g / l)) = PF.val (1 + g / l) := by
        simp [pfAdd]
      have e3 : pfDiv (PF.val 100) (PF.val (1 + g / l)) = PF.val (100 / (1 + g / l)) := by
        simp [pfDiv, hne1]
      have e4 : pfSub (PF.val 100) (PF.val (100 / (1 + g / l)))
          = PF.val (100 - 100 / (1 + g / l)) := by
        simp [pfSub, pfNeg, pfAdd, sub_eq_add_neg]
      rw [e1, e2, e3, e4] at h100
      have hfrac : 0 < (100:ℚ) / (1 + g / l) := by positivity
      have := PF.val.inj h100
      linarith

theorem claim10_witness :
    ((∀ q ∈ ([1, 3] : List ℚ), 0 < q)
      ∧ (rsiForex (([1, 3] : List ℚ).map PF.val)).getD 1 PF.nan = PF.val 100)
    ∧ (lossCol (pctChange100 (([1, 3] : List ℚ).map PF.val))).getD 1 PF.nan = PF.val 0 :=
  ⟨⟨by norm_num,
    by norm_num [rsiForex, rsiFromDelta, gainCol, lossCol, pctChange100, rollingMean,
      rollingMeanAt, windowAt, posPart, negMag, pfPos, pfIsNeg, pfDiv, pfAdd, pfSub,
      pfNeg, pfScale, PF.isNan, List.range_succ]⟩,
    ((claim10_rsi_zero_over_zero 0 0 [1, 3] 1 (by norm_num)).2
      (by norm_num [rsiForex, rsiFromDelta, gainCol, lossCol, pctChange100, rollingMean,
        rollingMeanAt, windowAt, posPart, negMag, pfPos, pfIsNeg, pfDiv, pfAdd, pfSub,
        pfNeg, pfScale, PF.isNan, List.range_succ])).1⟩

/-- Claim C7 counterexample: the indicator code SMA_x matches the SMA
family by substring but its suffix is not numeric, so
int(ind.split("_")[1]) raises a ValueError and compute_indicators
aborts with an error instead of silently ignoring the code. -/
theorem claim7_counterexample :
    compute_indicators [("Close", [PF.val 1, PF.val 2])] ["SMA_x"] = .error "SMA"
    ∧ compute_indicators [("Close", [PF.val 1, PF.val 2])] ["SMA"] = .error "SMA" := by
  constructor
  · rfl
  · rfl

/-- Claim C7 (corrected).  An indicator code that contains no known family
substring and equals none of ATR, MACD, RSI is silently ignored by
compute_indicators (the frame passes through unchanged); but a
malformed code that does contain the SMA (or EMA) family substring
while its underscore suffix is missing or non-numeric is not ignored —
it makes the computation fail with an error. -/
theorem claim7_unknown_codes (f : Frame) (code : String)
    (h1 : strContains code "SMA" = false) (h2 : strContains code "EMA" = false)
    (h3 : (code == "ATR") = false) (h4 : (code == "MACD") = false)
    (h5 : (code == "RSI") = false) :
    applyIndicator f code = .ok f
    ∧ (∀ (g : Frame) (c2 : String), strContains c2 "SMA" = true → parseSpan c2 = none →
        applyIndicator g c2 = .error "SMA") := by
  constructor
  · simp [applyIndicator, h1, h2, h3, h4, h5]
  · intro g c2 hc hp
    cases hgc : getCol g "Close" with
    | none => simp [applyIndicator, hc, hp, hgc]
    | some close => simp [applyIndicator, hc, hp, hgc]

theorem claim7_witness :
    (strContains "FOO" "SMA" = false ∧ strContains "FOO" "EMA" = false
      ∧ ("FOO" == "ATR") = false ∧ ("FOO" == "MACD") = false ∧ ("FOO" == "RSI") = false)
    ∧ applyIndicator [("Close", [PF.val 1, PF.val 2])] "FOO"
        = .ok [("Close", [PF.val 1, PF.val 2])] :=
  ⟨⟨by decide, by decide, by decide, by decide, by decide⟩,
    (claim7_unknown_codes [("Close", [PF.val 1, PF.val 2])] "FOO"
      (by decide) (by decide) (by decide) (by decide) (by decide)).1⟩

theorem setCol_fresh {f : Frame} {nm : String} (c : Col) (h : nm ∉ colNames f) :
    setCol f nm c = f ++ [(nm, c)] := by
  have hany : f.any (fun p => p.1 == nm) = false := by
    rw [List.any_eq_false]
    intro p hp
    simp only [beq_iff_eq]
    intro hEq
    exact h (hEq ▸ List.mem_map_of_mem Prod.fst hp)
  simp [setCol, hany]

theorem getCol_append_new (f : Frame) (nm : String) (c : Col) (h : nm ∉ colNames f) :
    getCol (f ++ [(nm, c)]) nm = some c := by
  unfold getCol
  rw [List.find?_append]
  have hnone : f.find? (fun p => p.1 == nm) = none := by
    rw [List.find?_eq_none]
    intro p hp
    simp only [beq_iff_eq]
    intro hEq
    exact h (hEq ▸ List.mem_map_of_mem Prod.fst hp)
  simp [hnone]

theorem getCol_append_keep (f : Frame) (t : Frame) (nm : String) (c : Col)
    (h : getCol f nm = some c) :
    getCol (f ++ t) nm = some c := by
  unfold getCol at h ⊢
  rw [List.find?_append]
  cases hf : f.find? (fun p => p.1 == nm) with
  | none => rw [hf] at h; simp at h
  | some e => rw [hf] at h; simp [hf, h]

/-- Claim C8 (corrected).  compute_indicators works on a copy and never
mutates its input; when a branch succeeds and the produced column names
are fresh, the result is exactly the input frame (all original columns
unchanged, in their original order) extended with one new column named
by the code for the SMA_n / EMA_n / ATR / RSI families — but with three
new columns, MACD, Signal and MACD_Hist, for the MACD code. -/
theorem claim8_new_columns (f f2 : Frame) (code : String)
    (hok : applyIndicator f code = .ok f2)
    (hfresh : ∀ nm ∈ newColsOf code, nm ∉ colNames f) :
    f2.take f.length = f ∧ colNames f2 = colNames f ++ newColsOf code := by
  by_cases hSMA : strContains code "SMA" = true
  · have hnew : newColsOf code = [code] := by simp [newColsOf, hSMA]
    simp only [applyIndicator, hSMA, if_true] at hok
    cases hps : parseSpan code with
    | none => rw [hps] at hok; simp at hok
    | some w =>
        cases hgc : getCol f "Close" with
        | none => rw [hps, hgc] at hok; simp at hok
        | some close =>
            rw [hps, hgc] at hok
            simp only [Except.ok.injEq] at hok
            subst hok
            have hf : code ∉ colNames f := hfresh code (by rw [hnew]; exact List.mem_singleton.mpr rfl)
            rw [setCol_fresh _ hf, hnew]
            exact ⟨List.take_left f _, by simp [colNames]⟩
  · by_cases hEMA : strContains code "EMA" = true
    · have hnew : newColsOf code = [code] := by
        simp [newColsOf, hSMA, hEMA]
      simp only [applyIndicator, hSMA, hEMA, if_true, if_false, Bool.false_eq_true] at hok
      cases hps : parseSpan code with
      | none => rw [hps] at hok; simp at hok
      | some w =>
          cases hgc : getCol f "Close" with
          | none => rw [hps, hgc] at hok; simp at hok
          | some close =>
              rw [hps, hgc] at hok
              simp only [Except.ok.injEq] at hok
              subst hok
              have hf : code ∉ colNames f :=
                hfresh code (by rw [hnew]; exact List.mem_singleton.mpr rfl)
              rw [setCol_fresh _ hf, hnew]
              exact ⟨List.take_left f _, by simp [colNames]⟩
    · by_cases hATR : code = "ATR"
      · subst hATR
        have hnew : newColsOf "ATR" = ["ATR"] := by decide
        simp only [applyIndicator, hSMA, hEMA, if_false, Bool.false_eq_true, beq_self_eq_true,
          if_true] at hok
        cases hgh : getCol f "High" with
        | none => rw [hgh] at hok; simp at hok
        | some h =>
            cases hgl : getCol f "Low" with
            | none => rw [hgh, hgl] at hok; simp at hok
            | some l =>
                cases hgc : getCol f "Close" with
                | none => rw [hgh, hgl, hgc] at hok; simp at hok
                | some c =>
                    rw [hgh, hgl, hgc] at hok
                    simp only [Except.ok.injEq] at hok
                    subst hok
                    have hf : "ATR" ∉ colNames f :=
                      hfresh "ATR" (by rw [hnew]; exact List.mem_singleton.mpr rfl)
                    rw [setCol_fresh _ hf, hnew]
                    exact ⟨List.take_left f _, by simp [colNames]⟩
      · by_cases hMACD : code = "MACD"
        · subst hMACD
          have hnew : newColsOf "MACD" = ["MACD", "Signal", "MACD_Hist"] := by decide
          have hfM : "MACD" ∉ colNames f := hfresh "MACD" (by rw [hnew]; simp)
          have hfS : "Signal" ∉ colNames f := hfresh "Signal" (by rw [hnew]; simp)
          have hfH : "MACD_Hist" ∉ colNames f := hfresh "MACD_Hist" (by rw [hnew]; simp)
          have hc1 : strContains "MACD" "SMA" = false := rfl
          have hc2 : strContains "MACD" "EMA" = false := rfl
          have hc3 : (("MACD" == "ATR") : Bool) = false := rfl
          simp only [applyIndicator, hc1, hc2, hc3, Bool.false_eq_true, if_false,
            beq_self_eq_true, if_true] at hok
          split at hok
          next c hgc =>
            split at hok
            next m heqM =>
              rw [setCol_fresh _ hfM, getCol_append_new f _ _ hfM] at heqM
              have hm : m = macdCol c := by
                injection heqM with h
                exact h.symm
              subst hm
              rw [setCol_fresh _ hfM] at hok
              have hfS2 : "Signal" ∉ colNames (f ++ [("MACD", macdCol c)]) := by
                simp only [colNames, List.map_append, List.mem_append]
                rintro (hin | hin)
                · exact hfS hin
                · simp at hin
              rw [setCol_fresh _ hfS2] at hok
              split at hok
              next m2 s heq2 heq3 =>
                rw [getCol_append_keep _ _ _ _ (getCol_append_new f _ _ hfM)] at heq2
                rw [getCol_append_new _ _ _ hfS2] at heq3
                have hm2 : m2 = macdCol c := by
                  injection heq2 with h
                  exact h.symm
                have hs : s = emaCol 9 (macdCol c) := by
                  injection heq3 with h
                  exact h.symm
                subst hm2
                subst hs
                have hfH2 : "MACD_Hist"
                    ∉ colNames (f ++ [("MACD", macdCol c)]
                        ++ [("Signal", emaCol 9 (macdCol c))]) := by
                  simp only [colNames, List.map_append, List.mem_append]
                  rintro ((hin | hin) | hin)
                  · exact hfH hin
                  · simp at hin
                  · simp at hin
                rw [setCol_fresh _ hfH2] at hok
                simp only [Except.ok.injEq] at hok
                subst hok
                constructor
                · rw [List.append_assoc, List.append_assoc]
                  exact List.take_left f _
                · simp [colNames, hnew]
              next hne => simp at hok
            next heqM =>
              rw [setCol_fresh _ hfM, getCol_append_new f _ _ hfM] at heqM
              simp at heqM
          next hgc => simp at hok
        · by_cases hRSI : code = "RSI"
          · subst hRSI
            have hnew : newColsOf "RSI" = ["RSI"] := by decide
            simp only [applyIndicator, hSMA, hEMA, if_false, Bool.false_eq_true,
              beq_self_eq_true, if_true] at hok
            have hne1 : (("RSI" == "ATR") : Bool) = false := by decide
            have hne2 : (("RSI" == "MACD") : Bool) = false := by decide
            rw [hne1, hne2] at hok
            simp only [Bool.false_eq_true, if_false, beq_self_eq_true, if_true] at hok
            cases hgc : getCol f "Close" with
            | none => rw [hgc] at hok; simp at hok
            | some c =>
                rw [hgc] at hok
                simp only [Except.ok.injEq] at hok
                subst hok
                have hf : "RSI" ∉ colNames f :=
                  hfresh "RSI" (by rw [hnew]; exact List.mem_singleton.mpr rfl)
                rw [setCol_fresh _ hf, hnew]
                exact ⟨List.take_left f _, by simp [colNames]⟩
          · have hnew : newColsOf code = [] := by
              simp [newColsOf, hSMA, hEMA, hATR, hMACD, hRSI]
            have hb3 : ((code == "ATR") : Bool) = false := by
              simp [hATR]
            have hb4 : ((code == "MACD") : Bool) = false := by
              simp [hMACD]
            have hb5 : ((code == "RSI") : Bool) = false := by
              simp [hRSI]
            simp only [applyIndicator, hSMA, hEMA, hb3, hb4, hb5, if_false,
              Bool.false_eq_true, Except.ok.injEq] at hok
            subst hok
            rw [hnew]
            exact ⟨List.take_length f, by simp⟩

/-- Claim C8 counterexample: requesting the single indicator code MACD on a
one-column frame yields three new columns (MACD, Signal, MACD_Hist),
not exactly one new column per requested code. -/
theorem claim8_counterexample :
    namesOf (compute_indicators [("Close", [PF.val 1, PF.val 2])] ["MACD"])
      = ["Close", "MACD", "Signal", "MACD_Hist"]
    ∧ (namesOf (compute_indicators [("Close", [PF.val 1, PF.val 2])] ["MACD"])).length
        ≠ (colNames [("Close", ([PF.val 1, PF.val 2] : Col))]).length + 1 := by
  constructor
  · rfl
  · decide

theorem claim8_witness :
    colNames [("Close", [PF.val 1]), ("RSI", rsiCommodities [PF.val 1])]
      = colNames [("Close", ([PF.val 1] : Col))] ++ newColsOf "RSI" :=
  (claim8_new_columns [("Close", [PF.val 1])]
    [("Close", [PF.val 1]), ("RSI", rsiCommodities [PF.val 1])] "RSI" rfl (by decide)).2

/-- Claim C9 counterexample: 2y is a selectable multi-year period, yet its
interval list is the full untruncated list, so the minute-level
interval 1m remains selectable for it. -/
theorem claim9_counterexample :
    "2y" ∈ period_options ∧ availableIntervals "2y" = interval_options
    ∧ "1m" ∈ availableIntervals "2y" := by
  refine ⟨by decide, by rfl, by decide⟩

/-- Claim C9 (corrected).  The interval-list truncation applies only to the
four periods that literally occur in the interval list (1d, 5d, 1mo,
3mo), where the selectable intervals are exactly the strictly
finer-grained entries preceding the period; for every other period
(6mo, 1y, 2y, 5y, 10y, ytd, max) the full interval list — minute-level
intervals included — is offered unchanged. -/
theorem claim9_interval_truncation :
    availableIntervals "1d" = ["1m", "2m", "5m", "15m", "30m", "60m", "90m", "1h"]
    ∧ availableIntervals "5d" = ["1m", "2m", "5m", "15m", "30m", "60m", "90m", "1h", "1d"]
    ∧ availableIntervals "1mo"
        = ["1m", "2m", "5m", "15m", "30m", "60m", "90m", "1h", "1d", "5d", "1wk"]
    ∧ availableIntervals "3mo"
        = ["1m", "2m", "5m", "15m", "30m", "60m", "90m", "1h", "1d", "5d", "1wk", "1mo"]
    ∧ availableIntervals "6mo" = interval_options
    ∧ availableIntervals "1y" = interval_options
    ∧ availableIntervals "2y" = interval_options
    ∧ availableIntervals "5y" = interval_options
    ∧ availableIntervals "10y" = interval_options
    ∧ availableIntervals "ytd" = interval_options
    ∧ availableIntervals "max" = interval_options := by
  refine ⟨rfl, rfl, rfl, rfl, rfl, rfl, rfl, rfl, rfl, rfl, rfl⟩

theorem find?_congr_mem {α : Type} (p q : α → Bool) :
    ∀ (l : List α), (∀ x ∈ l, p x = q x) → l.find? p = l.find? q := by
  intro l
  induction l with
  | nil => intro _; rfl
  | cons x t ih =>
      intro h
      have hx := h x (List.mem_cons_self x t)
      by_cases hp : p x = true
      · rw [List.find?_cons_of_pos _ hp, List.find?_cons_of_pos _ (by rw [← hx]; exact hp)]
      · have hq : ¬ q x = true := by rw [← hx]; exact hp
        rw [List.find?_cons_of_neg _ (by simpa using hp),
          List.find?_cons_of_neg _ (by simpa using hq)]
        exact ih (fun y hy => h y (List.mem_cons_of_mem _ hy))

/-- Claim C2 (confirmed).  A second fetch with identical arguments, made
before any clear and before the 600-second TTL of any matching entry
expires, returns a value equal to the first call's result and leaves
the provider-call count unchanged — for the plain st.cache_data
memoization of fetch_history and for the ttl=600 memoization of
fetch_ticker_data alike. -/
theorem claim2_memoization {α β : Type} [DecidableEq α]
    (provider : α → β) (k : α) (s : Cache α β)
    (tprov : α → β) (tk : α) (ts : TCache α β) (now1 now2 : ℕ)
    (h1 : now1 ≤ now2) (h2 : now2 - now1 < 600)
    (h3 : ∀ e ∈ ts.entries, e.1 = tk → now2 - e.2.2 < 600) :
    ((cachedCall provider k (cachedCall provider k s).2).1 = (cachedCall provider k s).1
      ∧ (cachedCall provider k (cachedCall provider k s).2).2.calls
          = (cachedCall provider k s).2.calls)
    ∧ ((cachedCallTTL 600 tprov tk now2 (cachedCallTTL 600 tprov tk now1 ts).2).1
          = (cachedCallTTL 600 tprov tk now1 ts).1
      ∧ (cachedCallTTL 600 tprov tk now2 (cachedCallTTL 600 tprov tk now1 ts).2).2.calls
          = (cachedCallTTL 600 tprov tk now1 ts).2.calls) := by
  constructor
  · cases hf : s.entries.find? (fun e => decide (e.1 = k)) with
    | some e => simp [cachedCall, hf]
    | none =>
        have hfind : (s.entries ++ [(k, provider k)]).find? (fun e => decide (e.1 = k))
            = some (k, provider k) := by
          rw [List.find?_append, hf]
          simp
        simp [cachedCall, hf, hfind]
  · have hagree : ∀ e ∈ ts.entries,
        (decide (e.1 = tk) && decide (now1 - e.2.2 < 600))
          = (decide (e.1 = tk) && decide (now2 - e.2.2 < 600)) := by
      intro e he
      by_cases hk : e.1 = tk
      · have hv2 := h3 e he hk
        have hv1 : now1 - e.2.2 < 600 := by omega
        simp [hk, hv1, hv2]
      · simp [hk]
    have hsame :
        ts.entries.find? (fun e => decide (e.1 = tk) && decide (now1 - e.2.2 < 600))
          = ts.entries.find? (fun e => decide (e.1 = tk) && decide (now2 - e.2.2 < 600)) :=
      find?_congr_mem _ _ ts.entries hagree
    cases hf : ts.entries.find? (fun e => decide (e.1 = tk) && decide (now1 - e.2.2 < 600)) with
    | some e =>
        have hf2 : ts.entries.find? (fun e => decide (e.1 = tk) && decide (now2 - e.2.2 < 600))
            = some e := by rw [← hsame]; exact hf
        simp [cachedCallTTL, hf, hf2]
    | none =>
        have hf2 : ts.entries.find? (fun e => decide (e.1 = tk) && decide (now2 - e.2.2 < 600))
            = none := by rw [← hsame]; exact hf
        have hfind : (ts.entries ++ [(tk, tprov tk, now1)]).find?
            (fun e => decide (e.1 = tk) && decide (now2 - e.2.2 < 600))
            = some (tk, tprov tk, now1) := by
          rw [List.find?_append, hf2]
          simp [h2]
        simp [cachedCallTTL, hf, hfind]

theorem claim2_witness :
    ((0:ℕ) ≤ 1 ∧ 1 - 0 < 600)
    ∧ (cachedCall (fun _ : ℕ => (7:ℕ)) 0 (cachedCall (fun _ : ℕ => (7:ℕ)) 0 ⟨[], 0⟩).2).1
        = (cachedCall (fun _ : ℕ => (7:ℕ)) 0 (⟨[], 0⟩ : Cache ℕ ℕ)).1 :=
  ⟨⟨by norm_num, by norm_num⟩,
    (claim2_memoization (fun _ : ℕ => (7:ℕ)) 0 ⟨[], 0⟩ (fun _ : ℕ => (7:ℕ)) 0 ⟨[], 0⟩ 0 1
      (by norm_num) (by norm_num) (by intro e he _; simp at he)).1.1⟩

/-- Claim C3 counterexample: fetch_history as defined in src/main.py lines
13-15 performs no exception handling, so a failing provider call
crosses its boundary as a raised exception instead of a returned error
value. -/
theorem claim3_counterexample :
    main_fetch_history (fun _ => .exn "network failure") ⟨"AAPL", "1mo", "1d"⟩
      = PyResult.exn "network failure"
    ∧ (main_fetch_history (fun _ => .exn "network failure")
        ⟨"AAPL", "1mo", "1d"⟩).raised = true :=
  ⟨rfl, rfl⟩

/-- Claim C3 (corrected).  The fetchers of the functions module that the
pages call (modelled from the spec, the module being absent from src)
capture every provider failure as a returned error value and never
raise across their boundary, for every provider outcome; but
fetch_history as written in src/main.py is a bare provider call, so it
propagates provider exceptions to its caller unchanged. -/
theorem claim3_fetch_boundary :
    (∀ (provider : HistArgs → PyResult String Frame) (a : HistArgs),
        (functions_fetch_history provider a).raised = false)
    ∧ (∀ (provider : String → PyResult String (List (String × String))) (sym : String),
        (functions_fetch_info provider sym).raised = false)
    ∧ (∀ (provider : String → PyResult String Frame) (url : String),
        (functions_fetch_table provider url).raised = false)
    ∧ (∀ (provider : HistArgs → PyResult String Frame) (a : HistArgs),
        main_fetch_history provider a = provider a) := by
  refine ⟨?_, ?_, ?_, fun _ _ => rfl⟩ <;>
    intro provider x <;>
    cases h : provider x <;>
    simp [functions_fetch_history, functions_fetch_info, functions_fetch_table,
      captureErrors, h, PyResult.raised]

end YFD
